import Mathlib

/-!
Shallow embedding of `src/intoiter.rs` from the `shared_vector` repository:
the raw two-pointer cursor `RawValIter`, the consuming iterator `IntoIter`,
and the `Vector → IntoIter` conversion, together with proofs of the
specification's claims about them.

Modelling conventions:
* raw addresses are `Nat` (allocations never wrap, so no modular arithmetic
  is needed on the reachable states; the `start <= end` invariant proved
  below is exactly what rules underflow out);
* the ambient element type `T` of the Rust code is a Lean type `α`, its
  `mem::size_of::<T>()` is an explicit parameter `sz : Nat`;
* memory is an ambient function `mem : Nat → α` (what `ptr::read` returns
  at each address); the value read from `NonNull::<T>::dangling()` for
  zero-sized `T` is an explicit parameter `dangling : α`.
-/

/-- The raw two-pointer cursor (`struct RawValIter<T>` in the source):
`start` is the address of the next forward element, `end` (here `end_`,
since `end` is a Lean keyword) is one past the last element. -/
structure RawValIter where
  start : Nat
  end_ : Nat
deriving DecidableEq, Repr

theorem RawValIter.eq_of {a : RawValIter} {s e : Nat}
    (h1 : a.start = s) (h2 : a.end_ = e) : a = { start := s, end_ := e } := by
  cases a; simp_all

namespace RawValIter

/-- `RawValIter::new` (src/intoiter.rs lines 67-78): `start` is the slice's
base pointer; `end` is `base + len` as integers when the element size is
zero, `base` itself when the slice is empty, and `base` offset by `len`
elements (i.e. `base + len * sz` as byte addresses) otherwise. -/
def new (sz base len : Nat) : RawValIter :=
  { start := base
    end_ :=
      if sz = 0 then base + len
      else if len = 0 then base
      else base + len * sz }

/-- `Iterator::next for RawValIter` (src/intoiter.rs lines 83-98): if
`start == end` the cursor is exhausted; otherwise for zero-sized elements
advance `start` by one integer unit and read the dangling placeholder,
else read the element at the old `start` and advance `start` by one
element (`offset(1)`, i.e. `sz` bytes). Returns the yielded value and the
updated cursor. -/
def next (sz : Nat) (mem : Nat → α) (dangling : α) (it : RawValIter) :
    Option α × RawValIter :=
  if it.start = it.end_ then (none, it)
  else if sz = 0 then
    (some dangling, { it with start := it.start + 1 })
  else
    (some (mem it.start), { it with start := it.start + sz })

/-- `DoubleEndedIterator::next_back for RawValIter` (src/intoiter.rs lines
109-123): if `start == end` the cursor is exhausted; otherwise decrement
`end` by one unit first, then read/produce the element at the decremented
`end` (the dangling placeholder for zero-sized elements). -/
def next_back (sz : Nat) (mem : Nat → α) (dangling : α) (it : RawValIter) :
    Option α × RawValIter :=
  if it.start = it.end_ then (none, it)
  else if sz = 0 then
    (some dangling, { it with end_ := it.end_ - 1 })
  else
    (some (mem (it.end_ - sz)), { it with end_ := it.end_ - sz })

/-- `RawValIter::size_hint` (src/intoiter.rs lines 100-105): the remaining
count is `(end - start) / (if sz == 0 then 1 else sz)`, reported as both
the lower and the upper bound. -/
def size_hint (sz : Nat) (it : RawValIter) : Nat × Option Nat :=
  let len := (it.end_ - it.start) / (if sz = 0 then 1 else sz)
  (len, some len)

end RawValIter

/-- One cursor unit: the stride of `start`/`end` per step — `1` integer
unit for a zero-sized element type, `sz` bytes otherwise. -/
def unitSize (sz : Nat) : Nat := if sz = 0 then 1 else sz

/-- The value a draw at logical index `i` produces: the dangling
placeholder for a zero-sized element type, the memory content at
`base + i * sz` otherwise. -/
def elemAt (sz : Nat) (mem : Nat → α) (dangling : α) (base i : Nat) : α :=
  if sz = 0 then dangling else mem (base + i * sz)

/-- The logical contents of the buffer at `base`: the `n` elements a full
forward traversal reads. -/
def layoutOf (sz : Nat) (mem : Nat → α) (dangling : α) (base n : Nat) : List α :=
  (List.range n).map (elemAt sz mem dangling base)

/-- A cursor state that represents the element index window `[i, j)` over
the buffer at `base`: every state reachable from `RawValIter.new` is of
this shape. -/
def GoodState (sz base i j : Nat) (it : RawValIter) : Prop :=
  it.start = base + i * unitSize sz ∧ it.end_ = base + j * unitSize sz

theorem unitSize_pos (sz : Nat) : 0 < unitSize sz := by
  unfold unitSize; split <;> omega

theorem GoodState.start_eq_end_iff {sz base i j : Nat} {it : RawValIter}
    (h : GoodState sz base i j it) : it.start = it.end_ ↔ i = j := by
  obtain ⟨hs, he⟩ := h
  have hu := unitSize_pos sz
  rw [hs, he]
  constructor
  · intro hij
    have : i * unitSize sz = j * unitSize sz := by omega
    exact Nat.eq_of_mul_eq_mul_right hu this
  · intro hij; rw [hij]

theorem GoodState.new (sz base len : Nat) :
    GoodState sz base 0 len (RawValIter.new sz base len) := by
  unfold GoodState RawValIter.new unitSize
  by_cases h0 : sz = 0
  · simp [h0]
  · by_cases hl : len = 0 <;> simp [h0, hl, Nat.mul_comm]

theorem next_of_good {sz base i j : Nat} (mem : Nat → α) (dangling : α)
    {it : RawValIter} (h : GoodState sz base i j it) (hij : i < j) :
    RawValIter.next sz mem dangling it =
      (some (elemAt sz mem dangling base i),
       { start := base + (i + 1) * unitSize sz, end_ := it.end_ }) := by
  obtain ⟨hs, he⟩ := h
  have hne : it.start ≠ it.end_ := by
    intro hcontra
    exact absurd ((GoodState.start_eq_end_iff ⟨hs, he⟩).mp hcontra) (by omega)
  unfold RawValIter.next elemAt unitSize
  by_cases h0 : sz = 0
  · simp only [if_neg hne, if_pos h0]
    simp [h0, hs, unitSize]; ring
  · simp only [if_neg hne, if_neg h0]
    simp [h0, hs, unitSize]; ring

theorem next_back_of_good {sz base i j : Nat} (mem : Nat → α) (dangling : α)
    {it : RawValIter} (h : GoodState sz base i j it) (hij : i < j) :
    RawValIter.next_back sz mem dangling it =
      (some (elemAt sz mem dangling base (j - 1)),
       { start := it.start, end_ := base + (j - 1) * unitSize sz }) := by
  obtain ⟨hs, he⟩ := h
  have hne : it.start ≠ it.end_ := by
    intro hcontra
    exact absurd ((GoodState.start_eq_end_iff ⟨hs, he⟩).mp hcontra) (by omega)
  have hkey : (j - 1) * unitSize sz = j * unitSize sz - unitSize sz := by
    rw [Nat.sub_mul, one_mul]
  have hle : unitSize sz ≤ j * unitSize sz :=
    Nat.le_mul_of_pos_left _ (by omega)
  have hend : it.end_ - unitSize sz = base + (j - 1) * unitSize sz := by
    rw [he]; omega
  unfold RawValIter.next_back elemAt
  by_cases h0 : sz = 0
  · have hu1 : unitSize sz = 1 := by simp [unitSize, h0]
    rw [hu1] at hend
    rw [if_neg hne, if_pos h0, if_pos h0, hend, hu1]
  · have hu' : unitSize sz = sz := by simp [unitSize, h0]
    rw [hu'] at hend
    rw [if_neg hne, if_neg h0, if_neg h0, hend, hu']

theorem next_of_exhausted {sz : Nat} {mem : Nat → α} {dangling : α}
    {it : RawValIter} (h : it.start = it.end_) :
    RawValIter.next sz mem dangling it = (none, it) := by
  unfold RawValIter.next; simp [h]

theorem next_back_of_exhausted {sz : Nat} {mem : Nat → α} {dangling : α}
    {it : RawValIter} (h : it.start = it.end_) :
    RawValIter.next_back sz mem dangling it = (none, it) := by
  unfold RawValIter.next_back; simp [h]

theorem size_hint_of_good {sz base i j : Nat} {it : RawValIter}
    (h : GoodState sz base i j it) (hij : i ≤ j) :
    RawValIter.size_hint sz it = (j - i, some (j - i)) := by
  obtain ⟨hs, he⟩ := h
  have hu := unitSize_pos sz
  unfold RawValIter.size_hint
  have hsub : it.end_ - it.start = (j - i) * unitSize sz := by
    rw [hs, he]
    have : i * unitSize sz ≤ j * unitSize sz := Nat.mul_le_mul_right _ hij
    calc base + j * unitSize sz - (base + i * unitSize sz)
        = j * unitSize sz - i * unitSize sz := by omega
      _ = (j - i) * unitSize sz := by rw [Nat.sub_mul]
  have hdiv : (if sz = 0 then 1 else sz) = unitSize sz := rfl
  rw [hsub, hdiv, Nat.mul_div_cancel _ hu]

/-- `List.range' s (n+1)` with its last element split off (step 1). -/
theorem range'_snoc (s n : Nat) :
    List.range' s (n + 1) = List.range' s n ++ [s + n] := by
  simpa using @List.range'_concat 1 s n

/-- Run a sequence of draws against the raw cursor: `true` is a forward
`next` call, `false` a backward `next_back` call (the calls a caller makes
on the consuming iterator delegate to exactly these, src/intoiter.rs lines
16-30).  Returns the successfully yielded values, in call order, and the
final cursor. -/
def runOps (sz : Nat) (mem : Nat → α) (dangling : α) :
    List Bool → RawValIter → List α × RawValIter
  | [], it => ([], it)
  | b :: ops, it =>
    let s := if b then it.next sz mem dangling else it.next_back sz mem dangling
    let r := runOps sz mem dangling ops s.2
    (s.1.toList ++ r.1, r.2)

/-- The loop `for _ in &mut *self {}` of `Drop for IntoIter`
(src/intoiter.rs line 37): repeatedly call `next`, stop at the first
`None`.  The loop is given explicit fuel because on states never produced
by `RawValIter::new` (where `start` could jump past `end`) the Rust loop
would not terminate either; all theorems below run it with enough fuel to
reach exhaustion on every reachable state. -/
def drainNext (sz : Nat) (mem : Nat → α) (dangling : α) :
    Nat → RawValIter → List α × RawValIter
  | 0, it => ([], it)
  | fuel + 1, it =>
    match it.next sz mem dangling with
    | (none, it') => ([], it')
    | (some x, it') =>
      let r := drainNext sz mem dangling fuel it'
      (x :: r.1, r.2)

/-- Repeatedly call `next_back`, stop at the first `None` (fuelled like
`drainNext`). -/
def drainBack (sz : Nat) (mem : Nat → α) (dangling : α) :
    Nat → RawValIter → List α × RawValIter
  | 0, it => ([], it)
  | fuel + 1, it =>
    match it.next_back sz mem dangling with
    | (none, it') => ([], it')
    | (some x, it') =>
      let r := drainBack sz mem dangling fuel it'
      (x :: r.1, r.2)

/-- Modelled from the spec: allocator instances (`crate::alloc::{Allocator,
Global}` is not under src/).  `Global` is the default global allocator the
conversion names; other instances are distinguished by an identity so that
"released using that same allocator instance" is expressible. -/
inductive AllocatorInst where
  | Global : AllocatorInst
  | custom : Nat → AllocatorInst
deriving DecidableEq, Repr

/-- Modelled from the spec: the raw-storage handle (`RawVector<T>`, not
under src/) — a contiguous allocation identified by its base address and
its capacity. -/
structure RawVector where
  ptr : Nat
  cap : Nat
deriving DecidableEq, Repr

/-- A record of one storage release: which allocation was freed, with
which allocator instance, and how many element destructors the release
primitive ran. -/
structure ReleaseEvent where
  buf : RawVector
  allocator : AllocatorInst
  destructorsRun : Nat
deriving DecidableEq, Repr

/-- Modelled from the spec: `RawVector::deallocate_no_drop` (not under
src/) is "a release primitive that frees the allocation's memory but does
not attempt to destroy any element": it releases the allocation with the
given allocator instance and runs zero element destructors. -/
def RawVector.deallocate_no_drop (buf : RawVector) (a : AllocatorInst) :
    ReleaseEvent :=
  { buf := buf, allocator := a, destructorsRun := 0 }

/-- Modelled from the spec: the growable array (`Vector<T, A>`, not under
src/), with the pieces `into_iter` uses: its raw-storage handle `raw`, its
current length `len` (the slice `&self` derefs to has base `raw.ptr` and
length `len`), and the allocator instance associated with the storage. -/
structure Vector where
  raw : RawVector
  len : Nat
  allocator : AllocatorInst
deriving DecidableEq, Repr

/-- `struct IntoIter<T, A>` (src/intoiter.rs lines 10-14): the retained
buffer handle `_buf` (kept only so it can be released at the end), the
cursor `iter`, and the allocator used for the release. -/
structure IntoIter where
  _buf : RawVector
  iter : RawValIter
  allocator : AllocatorInst
deriving DecidableEq, Repr

/-- `IntoIterator for Vector` / `into_iter` (src/intoiter.rs lines
45-58): captures a `RawValIter` over the vector's current contents, moves
the raw buffer handle out (`ptr::read(&self.raw)`), forgets the vector
(`mem::forget(self)`), and stores `Global` — not the vector's own
allocator — as the iterator's allocator (line 56). -/
def Vector.into_iter (sz : Nat) (v : Vector) : IntoIter :=
  { _buf := v.raw
    iter := RawValIter.new sz v.raw.ptr v.len
    allocator := AllocatorInst.Global }

/-- The effect of `mem::forget(self)` in `into_iter` on the original
array value: its own teardown never runs, so its destruction destroys no
elements and performs no storage release. -/
def forgottenTeardown (α : Type) (_v : Vector) : List α × List ReleaseEvent :=
  ([], [])

/-- `Iterator::next for IntoIter` (src/intoiter.rs lines 18-20):
delegates to the inner cursor. -/
def IntoIter.next (sz : Nat) (mem : Nat → α) (dangling : α) (it : IntoIter) :
    Option α × IntoIter :=
  let s := it.iter.next sz mem dangling
  (s.1, { it with iter := s.2 })

/-- `DoubleEndedIterator::next_back for IntoIter` (src/intoiter.rs lines
27-29): delegates to the inner cursor. -/
def IntoIter.next_back (sz : Nat) (mem : Nat → α) (dangling : α)
    (it : IntoIter) : Option α × IntoIter :=
  let s := it.iter.next_back sz mem dangling
  (s.1, { it with iter := s.2 })

/-- `IntoIter::size_hint` (src/intoiter.rs lines 21-23): delegates to the
inner cursor. -/
def IntoIter.size_hint (sz : Nat) (it : IntoIter) : Nat × Option Nat :=
  it.iter.size_hint sz

/-- A caller's sequence of draws on the consuming iterator (`true` =
`next`, `false` = `next_back`), returning the values the caller received
and the iterator afterwards. -/
def IntoIter.runOps (sz : Nat) (mem : Nat → α) (dangling : α) :
    List Bool → IntoIter → List α × IntoIter
  | [], it => ([], it)
  | b :: ops, it =>
    let s := if b then it.next sz mem dangling else it.next_back sz mem dangling
    let r := IntoIter.runOps sz mem dangling ops s.2
    (s.1.toList ++ r.1, r.2)

/-- `Drop for IntoIter` (src/intoiter.rs lines 34-43): first drain every
remaining element through the same `next` logic (`for _ in &mut *self {}`,
each yielded value being discarded runs its destructor), and only then
release the raw storage with `deallocate_no_drop`, which runs no element
destructors.  Returns (elements destroyed by the cleanup pass, in order;
the storage-release event that follows the pass).  `fuel` bounds the loop
as in `drainNext`. -/
def IntoIter.drop (sz : Nat) (mem : Nat → α) (dangling : α) (fuel : Nat)
    (it : IntoIter) : List α × ReleaseEvent :=
  ((drainNext sz mem dangling fuel it.iter).1,
   it._buf.deallocate_no_drop it.allocator)

/-- The caller-facing draws on `IntoIter` are exactly the raw cursor's
draws; `_buf` and `allocator` never change. -/
theorem intoIter_runOps_eq (sz : Nat) (mem : Nat → α) (dangling : α)
    (ops : List Bool) (it : IntoIter) :
    IntoIter.runOps sz mem dangling ops it =
      ((runOps sz mem dangling ops it.iter).1,
       { it with iter := (runOps sz mem dangling ops it.iter).2 }) := by
  induction ops generalizing it with
  | nil => simp [IntoIter.runOps, runOps]
  | cons b ops ih =>
    cases b <;>
      simp [IntoIter.runOps, runOps, IntoIter.next, IntoIter.next_back, ih]

/-- Interleaving invariant: running any pattern of forward/backward draws
from a state representing the window `[i, j)` leaves a state representing
some window `[i', j')` with `i ≤ i' ≤ j' ≤ j`, and the values yielded are
a permutation of the elements at indices `[i, i') ∪ [j', j)` — the
front-consumed prefix and the back-consumed suffix, each index once. -/
theorem runOps_of_good {sz base : Nat} (mem : Nat → α) (dangling : α)
    (ops : List Bool) {i j : Nat} {it : RawValIter}
    (h : GoodState sz base i j it) (hij : i ≤ j) :
    ∃ i' j', i ≤ i' ∧ i' ≤ j' ∧ j' ≤ j ∧
      GoodState sz base i' j' (runOps sz mem dangling ops it).2 ∧
      List.Perm (runOps sz mem dangling ops it).1
        ((List.range' i (i' - i)).map (elemAt sz mem dangling base) ++
         (List.range' j' (j - j')).map (elemAt sz mem dangling base)) := by
  induction ops generalizing i j it with
  | nil =>
    exact ⟨i, j, le_refl _, hij, le_refl _, h, by simp [runOps]⟩
  | cons b ops ih =>
    by_cases hij' : i = j
    · subst hij'
      obtain ⟨hs, he⟩ := h
      have hse : it.start = it.end_ := by rw [hs, he]
      have hstep : (if b then it.next sz mem dangling
          else it.next_back sz mem dangling) = (none, it) := by
        cases b <;>
          simp [next_of_exhausted hse, next_back_of_exhausted hse]
      obtain ⟨i', j', h1, h2, h3, h4, h5⟩ :=
        ih (show GoodState sz base i i it from ⟨hs, he⟩) (le_refl _)
      refine ⟨i', j', h1, h2, h3, ?_, ?_⟩
      · simpa [runOps, hstep] using h4
      · simpa [runOps, hstep] using h5
    · have hlt : i < j := by omega
      cases b with
      | true =>
        have hstep := next_of_good mem dangling h hlt
        have hgood' : GoodState sz base (i + 1) j
            { start := base + (i + 1) * unitSize sz, end_ := it.end_ } :=
          ⟨rfl, h.2⟩
        obtain ⟨i', j', h1, h2, h3, h4, h5⟩ := ih hgood' (by omega)
        refine ⟨i', j', by omega, h2, h3, ?_, ?_⟩
        · simpa [runOps, hstep] using h4
        · have heq : (runOps sz mem dangling (true :: ops) it).1 =
              elemAt sz mem dangling base i ::
                (runOps sz mem dangling ops
                  { start := base + (i + 1) * unitSize sz, end_ := it.end_ }).1 := by
            simp [runOps, hstep]
          rw [heq]
          have hr : List.range' i (i' - i) =
              i :: List.range' (i + 1) (i' - (i + 1)) := by
            have hn : i' - i = (i' - (i + 1)) + 1 := by omega
            rw [hn, List.range'_succ]
          rw [hr]
          simpa using h5.cons (elemAt sz mem dangling base i)
      | false =>
        have hstep := next_back_of_good mem dangling h hlt
        have hgood' : GoodState sz base i (j - 1)
            { start := it.start, end_ := base + (j - 1) * unitSize sz } :=
          ⟨h.1, rfl⟩
        obtain ⟨i', j', h1, h2, h3, h4, h5⟩ := ih hgood' (by omega)
        refine ⟨i', j', h1, h2, by omega, ?_, ?_⟩
        · simpa [runOps, hstep] using h4
        · have heq : (runOps sz mem dangling (false :: ops) it).1 =
              elemAt sz mem dangling base (j - 1) ::
                (runOps sz mem dangling ops
                  { start := it.start, end_ := base + (j - 1) * unitSize sz }).1 := by
            simp [runOps, hstep]
          rw [heq]
          have hr : List.range' j' (j - j') =
              List.range' j' (j - 1 - j') ++ [j - 1] := by
            have hn : j - j' = (j - 1 - j') + 1 := by omega
            rw [hn, range'_snoc]
            congr 2
            omega
          rw [hr]
          refine (h5.cons (elemAt sz mem dangling base (j - 1))).trans ?_
          have hperm := (List.perm_append_singleton
            (elemAt sz mem dangling base (j - 1))
            ((List.range' i (i' - i)).map (elemAt sz mem dangling base) ++
             (List.range' j' (j - 1 - j')).map (elemAt sz mem dangling base))).symm
          simpa [List.append_assoc] using hperm

/-- Splicing the three index windows back together (step-1 ranges). -/
theorem range'_glue (s m n : Nat) :
    List.range' s m ++ List.range' (s + m) n = List.range' s (m + n) := by
  have h := List.range'_append s m n 1
  simp only [one_mul, Nat.add_comm n m] at h
  exact h

theorem drainNext_of_good {sz base : Nat} (mem : Nat → α) (dangling : α)
    {i j : Nat} (fuel : Nat) {it : RawValIter}
    (h : GoodState sz base i j it) (hij : i ≤ j) (hfuel : j - i ≤ fuel) :
    drainNext sz mem dangling fuel it =
      ((List.range' i (j - i)).map (elemAt sz mem dangling base),
       { start := base + j * unitSize sz, end_ := base + j * unitSize sz }) := by
  induction fuel generalizing i it with
  | zero =>
    have hij' : i = j := by omega
    subst hij'
    obtain ⟨hs, he⟩ := h
    rw [RawValIter.eq_of hs he]
    simp [drainNext, Nat.sub_self]
  | succ fuel ih =>
    by_cases hij' : i = j
    · subst hij'
      obtain ⟨hs, he⟩ := h
      rw [RawValIter.eq_of hs he]
      simp [drainNext, RawValIter.next, Nat.sub_self]
    · have hlt : i < j := by omega
      have hstep := next_of_good mem dangling h hlt
      have hgood' : GoodState sz base (i + 1) j
          { start := base + (i + 1) * unitSize sz, end_ := it.end_ } :=
        ⟨rfl, h.2⟩
      have hrec := ih hgood' (by omega) (by omega)
      have hn : j - i = (j - (i + 1)) + 1 := by omega
      simp only [drainNext, hstep, hrec, hn, List.range'_succ, List.map_cons]

theorem drainBack_of_good {sz base : Nat} (mem : Nat → α) (dangling : α)
    {i j : Nat} (fuel : Nat) {it : RawValIter}
    (h : GoodState sz base i j it) (hij : i ≤ j) (hfuel : j - i ≤ fuel) :
    drainBack sz mem dangling fuel it =
      (((List.range' i (j - i)).map (elemAt sz mem dangling base)).reverse,
       { start := base + i * unitSize sz, end_ := base + i * unitSize sz }) := by
  induction fuel generalizing j it with
  | zero =>
    have hij' : i = j := by omega
    subst hij'
    obtain ⟨hs, he⟩ := h
    rw [RawValIter.eq_of hs he]
    simp [drainBack, Nat.sub_self]
  | succ fuel ih =>
    by_cases hij' : i = j
    · subst hij'
      obtain ⟨hs, he⟩ := h
      rw [RawValIter.eq_of hs he]
      simp [drainBack, RawValIter.next_back, Nat.sub_self]
    · have hlt : i < j := by omega
      have hstep := next_back_of_good mem dangling h hlt
      have hgood' : GoodState sz base i (j - 1)
          { start := it.start, end_ := base + (j - 1) * unitSize sz } :=
        ⟨h.1, rfl⟩
      have hrec := ih hgood' (by omega) (by omega)
      have hn : j - i = (j - 1 - i) + 1 := by omega
      have hsplit : List.range' i (j - i) =
          List.range' i (j - 1 - i) ++ [j - 1] := by
        rw [hn, range'_snoc]
        congr 1
        simp
        omega
      simp only [drainBack, hstep, hrec, hsplit, List.map_append,
        List.reverse_append, List.map_cons, List.map_nil, List.reverse_cons,
        List.reverse_nil, List.nil_append, List.cons_append]

/-- Full accounting for "convert, draw arbitrarily, then drop": the values
the caller drew plus the values the cleanup pass destroys are exactly the
vector's contents (each exactly once), the cleanup count is the length
minus the draw count, and the release event that follows the cleanup frees
the vector's own allocation with the iterator's stored allocator while
running zero element destructors. -/
theorem intoIter_run_drop {sz : Nat} {mem : Nat → α} {dangling : α}
    (v : Vector) (xs : List α) (ops : List Bool) (fuel : Nat)
    (hlen : v.len = xs.length)
    (hxs : layoutOf sz mem dangling v.raw.ptr v.len = xs)
    (hfuel : xs.length ≤ fuel) :
    (IntoIter.runOps sz mem dangling ops (v.into_iter sz)).1.length ≤ xs.length ∧
    (IntoIter.drop sz mem dangling fuel
        (IntoIter.runOps sz mem dangling ops (v.into_iter sz)).2).1.length =
      xs.length - (IntoIter.runOps sz mem dangling ops (v.into_iter sz)).1.length ∧
    List.Perm
      ((IntoIter.runOps sz mem dangling ops (v.into_iter sz)).1 ++
       (IntoIter.drop sz mem dangling fuel
         (IntoIter.runOps sz mem dangling ops (v.into_iter sz)).2).1)
      xs ∧
    (IntoIter.drop sz mem dangling fuel
        (IntoIter.runOps sz mem dangling ops (v.into_iter sz)).2).2 =
      { buf := v.raw, allocator := AllocatorInst.Global, destructorsRun := 0 } := by
  have hit0 : (v.into_iter sz).iter = RawValIter.new sz v.raw.ptr v.len := rfl
  have hgood0 : GoodState sz v.raw.ptr 0 v.len (v.into_iter sz).iter := by
    rw [hit0]; exact GoodState.new sz v.raw.ptr v.len
  obtain ⟨i', j', h1, h2, h3, hgood', hperm⟩ :=
    runOps_of_good mem dangling ops hgood0 (Nat.zero_le _)
  have hrun := intoIter_runOps_eq sz mem dangling ops (v.into_iter sz)
  have hiter2 : (IntoIter.runOps sz mem dangling ops (v.into_iter sz)).2.iter =
      (runOps sz mem dangling ops (v.into_iter sz).iter).2 := by rw [hrun]
  have hys : (IntoIter.runOps sz mem dangling ops (v.into_iter sz)).1 =
      (runOps sz mem dangling ops (v.into_iter sz).iter).1 := by rw [hrun]
  have hdrain := drainNext_of_good mem dangling fuel (hiter2 ▸ hgood') h2 (by omega)
  have hds : (IntoIter.drop sz mem dangling fuel
      (IntoIter.runOps sz mem dangling ops (v.into_iter sz)).2).1 =
      (List.range' i' (j' - i')).map (elemAt sz mem dangling v.raw.ptr) := by
    unfold IntoIter.drop
    rw [hiter2] at hdrain ⊢
    rw [hdrain]
  have hyslen : (IntoIter.runOps sz mem dangling ops (v.into_iter sz)).1.length =
      i' + (v.len - j') := by
    rw [hys]
    have := hperm.length_eq
    simpa using this
  have hdslen : (IntoIter.drop sz mem dangling fuel
      (IntoIter.runOps sz mem dangling ops (v.into_iter sz)).2).1.length =
      j' - i' := by rw [hds]; simp
  refine ⟨by omega, by omega, ?_, ?_⟩
  · rw [hys, hds]
    have hysperm := hperm
    have hstep1 : List.Perm
        ((runOps sz mem dangling ops (v.into_iter sz).iter).1 ++
          (List.range' i' (j' - i')).map (elemAt sz mem dangling v.raw.ptr))
        (((List.range' 0 i').map (elemAt sz mem dangling v.raw.ptr) ++
          (List.range' j' (v.len - j')).map (elemAt sz mem dangling v.raw.ptr)) ++
          (List.range' i' (j' - i')).map (elemAt sz mem dangling v.raw.ptr)) := by
      exact hysperm.append_right _
    refine hstep1.trans ?_
    have hstep2 : List.Perm
        (((List.range' 0 i').map (elemAt sz mem dangling v.raw.ptr) ++
          (List.range' j' (v.len - j')).map (elemAt sz mem dangling v.raw.ptr)) ++
          (List.range' i' (j' - i')).map (elemAt sz mem dangling v.raw.ptr))
        ((List.range' 0 i').map (elemAt sz mem dangling v.raw.ptr) ++
          ((List.range' i' (j' - i')).map (elemAt sz mem dangling v.raw.ptr) ++
           (List.range' j' (v.len - j')).map (elemAt sz mem dangling v.raw.ptr))) := by
      rw [List.append_assoc]
      exact List.Perm.append_left _ (List.perm_append_comm)
    refine hstep2.trans ?_
    have hglue1 : List.range' i' (j' - i') ++ List.range' j' (v.len - j') =
        List.range' i' (v.len - i') := by
      have hj : i' + (j' - i') = j' := by omega
      have := range'_glue i' (j' - i') (v.len - j')
      rw [hj] at this
      rw [this]
      congr 1
      omega
    have hglue2 : List.range' 0 i' ++ List.range' i' (v.len - i') =
        List.range' 0 v.len := by
      have := range'_glue 0 i' (v.len - i')
      simpa [Nat.add_sub_cancel' (h3.trans (Nat.le_refl v.len) |>.trans (Nat.le_refl v.len))] using
        (by
          have h0 : (0 : Nat) + i' = i' := Nat.zero_add i'
          have htot : i' + (v.len - i') = v.len := by omega
          rw [h0] at this
          rw [htot] at this
          exact this)
    rw [← List.map_append, hglue1, ← List.map_append, hglue2]
    have hlayout : (List.range' 0 v.len).map (elemAt sz mem dangling v.raw.ptr) = xs := by
      rw [← hxs]
      unfold layoutOf
      rw [List.range_eq_range']
    rw [hlayout]
  · unfold IntoIter.drop RawVector.deallocate_no_drop
    have hbuf : (IntoIter.runOps sz mem dangling ops (v.into_iter sz)).2._buf = v.raw := by
      rw [hrun]; rfl
    have halloc : (IntoIter.runOps sz mem dangling ops (v.into_iter sz)).2.allocator =
        AllocatorInst.Global := by
      rw [hrun]; rfl
    rw [hbuf, halloc]

/-- A run of `t` forward draws from a window `[i, j)` with `i + t ≤ j`
yields the elements at indices `[i, i + t)` and advances the window to
`[i + t, j)`. -/
theorem runOps_replicate_true {sz base : Nat} (mem : Nat → α) (dangling : α)
    {i j : Nat} {it : RawValIter} (t : Nat)
    (h : GoodState sz base i j it) (hij : i + t ≤ j) :
    runOps sz mem dangling (List.replicate t true) it =
      ((List.range' i t).map (elemAt sz mem dangling base),
       { start := base + (i + t) * unitSize sz,
         end_ := base + j * unitSize sz }) := by
  induction t generalizing i it with
  | zero =>
    obtain ⟨hs, he⟩ := h
    rw [RawValIter.eq_of hs he]
    simp [runOps]
  | succ t ih =>
    have hlt : i < j := by omega
    have hstep := next_of_good mem dangling h hlt
    have hgood' : GoodState sz base (i + 1) j
        { start := base + (i + 1) * unitSize sz, end_ := it.end_ } :=
      ⟨rfl, h.2⟩
    have hrec := ih hgood' (by omega)
    have hn : i + 1 + t = i + (t + 1) := by omega
    simp [List.replicate_succ, runOps, hstep, hrec, hn, List.range'_succ]

/-- C9: for every cursor constructed by `new` and mutated by any sequence
of `next`/`next_back` calls, `start ≤ end` holds, with equality exactly
when the remaining count reported by `size_hint` is zero — so the address
subtraction inside `size_hint` never underflows. -/
theorem C9_start_le_end (sz base len : Nat) (mem : Nat → α) (dangling : α)
    (ops : List Bool) :
    (runOps sz mem dangling ops (RawValIter.new sz base len)).2.start ≤
      (runOps sz mem dangling ops (RawValIter.new sz base len)).2.end_ ∧
    ((runOps sz mem dangling ops (RawValIter.new sz base len)).2.start =
        (runOps sz mem dangling ops (RawValIter.new sz base len)).2.end_ ↔
      (RawValIter.size_hint sz
        (runOps sz mem dangling ops (RawValIter.new sz base len)).2).1 = 0) := by
  obtain ⟨i', j', h1, h2, h3, hgood', hperm⟩ :=
    runOps_of_good mem dangling ops
      (GoodState.new sz base len) (Nat.zero_le _)
  obtain ⟨hs, he⟩ := hgood'
  have hmul : i' * unitSize sz ≤ j' * unitSize sz :=
    Nat.mul_le_mul_right _ h2
  refine ⟨by omega, ?_⟩
  rw [size_hint_of_good ⟨hs, he⟩ h2]
  rw [(GoodState.start_eq_end_iff ⟨hs, he⟩)]
  constructor
  · intro hij; omega
  · intro hz; omega

/-- C10: exhaustion is the absence of a value, never a failure: whenever
`start == end`, both `next` and `next_back` return `none` with the cursor
unchanged, so arbitrarily many further calls after exhaustion all return
`none`. -/
theorem C10_exhausted_none (sz : Nat) (mem : Nat → α) (dangling : α)
    (it : RawValIter) (h : it.start = it.end_) :
    RawValIter.next sz mem dangling it = (none, it) ∧
    RawValIter.next_back sz mem dangling it = (none, it) ∧
    ∀ ops : List Bool, runOps sz mem dangling ops it = ([], it) := by
  refine ⟨next_of_exhausted h, next_back_of_exhausted h, ?_⟩
  intro ops
  induction ops with
  | nil => simp [runOps]
  | cons b ops ih =>
    cases b <;>
      simp [runOps, next_of_exhausted h, next_back_of_exhausted h, ih]

/-- Witness for C10 at a concrete exhausted cursor. -/
theorem C10_witness :
    RawValIter.next 1 (fun a => a) 0 { start := 5, end_ := 5 } =
      (none, { start := 5, end_ := 5 }) ∧
    RawValIter.next_back 1 (fun a => a) 0 { start := 5, end_ := 5 } =
      (none, { start := 5, end_ := 5 }) ∧
    ∀ ops : List Bool, runOps 1 (fun a => a) 0 ops { start := 5, end_ := 5 } =
      ([], { start := 5, end_ := 5 }) :=
  C10_exhausted_none 1 (fun a => a) 0 { start := 5, end_ := 5 } rfl

/-- C6: `size_hint` is the exact remaining count
`(end - start) / max(element_size, 1)`, reported as equal lower and upper
bounds; it equals `len` on a fresh cursor, `len - k` after `k` combined
draws, and is `0` exactly when `start == end`. -/
theorem C6_size_hint_exact (sz base len : Nat) (mem : Nat → α) (dangling : α)
    (ops : List Bool) :
    (∀ it : RawValIter, RawValIter.size_hint sz it =
      ((it.end_ - it.start) / max sz 1,
       some ((it.end_ - it.start) / max sz 1))) ∧
    RawValIter.size_hint sz (RawValIter.new sz base len) = (len, some len) ∧
    (RawValIter.size_hint sz
        (runOps sz mem dangling ops (RawValIter.new sz base len)).2).1 =
      len - (runOps sz mem dangling ops (RawValIter.new sz base len)).1.length ∧
    ((RawValIter.size_hint sz
        (runOps sz mem dangling ops (RawValIter.new sz base len)).2).1 = 0 ↔
      (runOps sz mem dangling ops (RawValIter.new sz base len)).2.start =
        (runOps sz mem dangling ops (RawValIter.new sz base len)).2.end_) := by
  obtain ⟨i', j', h1, h2, h3, hgood', hperm⟩ :=
    runOps_of_good mem dangling ops
      (GoodState.new sz base len) (Nat.zero_le _)
  have hk : (runOps sz mem dangling ops (RawValIter.new sz base len)).1.length =
      i' + (len - j') := by
    have := hperm.length_eq
    simpa using this
  refine ⟨?_, ?_, ?_, ?_⟩
  · intro it
    unfold RawValIter.size_hint
    rcases Nat.eq_zero_or_pos sz with h0 | h0
    · simp [h0]
    · have hmax : max sz 1 = sz := Nat.max_eq_left h0
      have hif : (if sz = 0 then 1 else sz) = sz := by
        rw [if_neg (by omega)]
      rw [hmax, hif]
  · have := size_hint_of_good (GoodState.new sz base len) (Nat.zero_le len)
    simpa using this
  · rw [size_hint_of_good hgood' h2, hk]
    omega
  · rw [size_hint_of_good hgood' h2,
      GoodState.start_eq_end_iff hgood']
    omega

/-- C3: for a sequence of `N` elements stored at `base`, converting to the
consuming iterator and draining fully forward with `next` yields exactly
those `N` elements in original order, each exactly once; in particular
draining the 101 values `0..=100` and summing gives 5050. -/
theorem C3_forward_drain_in_order (sz base fuel : Nat) (mem : Nat → α)
    (dangling : α) (xs : List α)
    (hxs : layoutOf sz mem dangling base xs.length = xs)
    (hfuel : xs.length ≤ fuel) :
    (drainNext sz mem dangling fuel (RawValIter.new sz base xs.length)).1 = xs ∧
    ((drainNext 1 (fun a => a) 0 101 (RawValIter.new 1 0 101)).1).sum = 5050 := by
  constructor
  · have h := drainNext_of_good mem dangling fuel
      (GoodState.new sz base xs.length) (Nat.zero_le _) (by omega)
    rw [h]
    simpa [layoutOf, List.range_eq_range'] using hxs
  · decide

/-- Witness for C3 at the concrete contents `[0, 1, 2]`. -/
theorem C3_witness :
    layoutOf 1 (fun a => a) 0 0 ([0, 1, 2] : List Nat).length = [0, 1, 2] ∧
    ([0, 1, 2] : List Nat).length ≤ 5 ∧
    (drainNext 1 (fun a => a) 0 5
      (RawValIter.new 1 0 ([0, 1, 2] : List Nat).length)).1 = [0, 1, 2] :=
  ⟨by decide, by decide,
    (C3_forward_drain_in_order 1 0 5 (fun a => a) 0 [0, 1, 2]
      (by decide) (by decide)).1⟩

/-- C4: draining fully backward with `next_back` yields the `N` elements
in reverse of their original order, each exactly once; each `next_back`
call on a non-empty cursor first decrements `end` by one element unit and
then reads the element at the decremented `end`. -/
theorem C4_backward_drain_reverse (sz base fuel : Nat) (mem : Nat → α)
    (dangling : α) (xs : List α)
    (hxs : layoutOf sz mem dangling base xs.length = xs)
    (hfuel : xs.length ≤ fuel) :
    (drainBack sz mem dangling fuel (RawValIter.new sz base xs.length)).1 =
      xs.reverse ∧
    (∀ it : RawValIter, it.start ≠ it.end_ →
      (RawValIter.next_back sz mem dangling it).2.end_ =
        it.end_ - unitSize sz ∧
      (RawValIter.next_back sz mem dangling it).1 =
        some (if sz = 0 then dangling
          else mem ((RawValIter.next_back sz mem dangling it).2.end_))) := by
  constructor
  · have h := drainBack_of_good mem dangling fuel
      (GoodState.new sz base xs.length) (Nat.zero_le _) (by omega)
    rw [h]
    have hxs' : (List.range' 0 (xs.length - 0)).map (elemAt sz mem dangling base) = xs := by
      simpa [layoutOf, List.range_eq_range'] using hxs
    rw [Nat.sub_zero] at hxs'
    simp [hxs']
  · intro it hne
    unfold RawValIter.next_back unitSize
    by_cases h0 : sz = 0 <;> simp [hne, h0]

/-- Witness for C4 at the concrete contents `[0, 1, 2]`. -/
theorem C4_witness :
    layoutOf 1 (fun a => a) 0 0 ([0, 1, 2] : List Nat).length = [0, 1, 2] ∧
    (drainBack 1 (fun a => a) 0 5
      (RawValIter.new 1 0 ([0, 1, 2] : List Nat).length)).1 = [2, 1, 0] := by
  refine ⟨by decide, ?_⟩
  have h := (C4_backward_drain_reverse 1 0 5 (fun a => a) 0 [0, 1, 2]
    (by decide) (by decide)).1
  simpa using h

/-- C5: for every interleaving pattern of `next`/`next_back`, draws on a
cursor over `N` elements succeed while `start ≠ end` (a value-producing
draw from either end exists whenever the window is non-empty), and once
the pattern exhausts the cursor (`start == end`) the values yielded are a
permutation of the `N` original elements — each yielded exactly once, `N`
in total. -/
theorem C5_interleaved_draws (sz base : Nat) (mem : Nat → α) (dangling : α)
    (xs : List α) (ops : List Bool)
    (hxs : layoutOf sz mem dangling base xs.length = xs)
    (hexh : (runOps sz mem dangling ops (RawValIter.new sz base xs.length)).2.start =
      (runOps sz mem dangling ops (RawValIter.new sz base xs.length)).2.end_) :
    List.Perm (runOps sz mem dangling ops (RawValIter.new sz base xs.length)).1 xs ∧
    (runOps sz mem dangling ops (RawValIter.new sz base xs.length)).1.length =
      xs.length ∧
    (∀ (it : RawValIter) (i j : Nat), GoodState sz base i j it → i < j →
      ((RawValIter.next sz mem dangling it).1.isSome ∧
       (RawValIter.next_back sz mem dangling it).1.isSome)) := by
  obtain ⟨i', j', h1, h2, h3, hgood', hperm⟩ :=
    runOps_of_good mem dangling ops
      (GoodState.new sz base xs.length) (Nat.zero_le _)
  have hij : i' = j' := (GoodState.start_eq_end_iff hgood').mp hexh
  subst hij
  rw [Nat.sub_zero] at hperm
  have hglue : List.range' 0 i' ++ List.range' i' (xs.length - i') =
      List.range' 0 xs.length := by
    have h := range'_glue 0 i' (xs.length - i')
    rw [Nat.zero_add] at h
    have htot : i' + (xs.length - i') = xs.length := by omega
    rw [htot] at h
    exact h
  have hfull : (List.range' 0 i').map (elemAt sz mem dangling base) ++
      (List.range' i' (xs.length - i')).map (elemAt sz mem dangling base) = xs := by
    rw [← List.map_append, hglue]
    simpa [layoutOf, List.range_eq_range'] using hxs
  have hpermxs : List.Perm
      (runOps sz mem dangling ops (RawValIter.new sz base xs.length)).1 xs := by
    have h' := hperm
    rw [hfull] at h'
    exact h'
  refine ⟨hpermxs, hpermxs.length_eq, ?_⟩
  intro it i j hg hlt
  rw [next_of_good mem dangling hg hlt, next_back_of_good mem dangling hg hlt]
  simp

/-- Witness for C5 at the contents `[0, 1, 2]` and the draw pattern
front, back, front. -/
theorem C5_witness :
    layoutOf 1 (fun a => a) 0 0 ([0, 1, 2] : List Nat).length = [0, 1, 2] ∧
    (runOps 1 (fun a => a) 0 [true, false, true]
      (RawValIter.new 1 0 ([0, 1, 2] : List Nat).length)).2.start =
      (runOps 1 (fun a => a) 0 [true, false, true]
        (RawValIter.new 1 0 ([0, 1, 2] : List Nat).length)).2.end_ ∧
    List.Perm (runOps 1 (fun a => a) 0 [true, false, true]
      (RawValIter.new 1 0 ([0, 1, 2] : List Nat).length)).1 [0, 1, 2] :=
  ⟨by decide, by decide,
    (C5_interleaved_draws 1 0 (fun a => a) 0 [0, 1, 2] [true, false, true]
      (by decide) (by decide)).1⟩

/-- C7: for a zero-width element type (`sz = 0`), `new` sets `end` to
`start`'s address as an integer plus the element count (not a pointer
offset), each `next` on a non-exhausted cursor advances `start` by one
integer unit and produces the placeholder value, and `N` zero-width
elements drain in exactly `N` forward steps with `size_hint` decreasing
by one per step, ending exhausted. -/
theorem C7_zero_width (base len : Nat) (mem : Nat → α) (dangling : α) :
    (RawValIter.new 0 base len).end_ = base + len ∧
    (∀ it : RawValIter, it.start ≠ it.end_ →
      RawValIter.next 0 mem dangling it =
        (some dangling, { it with start := it.start + 1 })) ∧
    (∀ t, t ≤ len →
      (runOps 0 mem dangling (List.replicate t true)
        (RawValIter.new 0 base len)).1 = List.replicate t dangling ∧
      RawValIter.size_hint 0
        (runOps 0 mem dangling (List.replicate t true)
          (RawValIter.new 0 base len)).2 = (len - t, some (len - t))) ∧
    (runOps 0 mem dangling (List.replicate len true)
      (RawValIter.new 0 base len)).2.start =
      (runOps 0 mem dangling (List.replicate len true)
        (RawValIter.new 0 base len)).2.end_ := by
  refine ⟨?_, ?_, ?_, ?_⟩
  · simp [RawValIter.new]
  · intro it hne
    unfold RawValIter.next
    simp [hne]
  · intro t ht
    have hr := runOps_replicate_true mem dangling t
      (GoodState.new 0 base len) (by omega)
    constructor
    · rw [hr]
      have he : elemAt 0 mem dangling base = fun _ => dangling := by
        funext k; simp [elemAt]
      simp [he]
    · rw [hr]
      have hgood : GoodState 0 base (0 + t) len
          { start := base + (0 + t) * unitSize 0,
            end_ := base + len * unitSize 0 } := ⟨rfl, rfl⟩
      have h := size_hint_of_good hgood (by omega)
      simpa using h
  · have hr := runOps_replicate_true mem dangling len
      (GoodState.new 0 base len) (by omega)
    rw [hr]
    simp

/-- Witness for C7: two zero-width elements at base 7, one step taken. -/
theorem C7_witness :
    (RawValIter.new 0 7 2).end_ = 7 + 2 ∧
    (runOps 0 (fun _ => ()) () (List.replicate 1 true)
      (RawValIter.new 0 7 2)).1 = List.replicate 1 () ∧
    RawValIter.size_hint 0
      (runOps 0 (fun _ => ()) () (List.replicate 1 true)
        (RawValIter.new 0 7 2)).2 = (2 - 1, some (2 - 1)) := by
  have h := C7_zero_width 7 2 (fun _ => ()) ()
  exact ⟨h.1, (h.2.2.1 1 (by decide)).1, (h.2.2.1 1 (by decide)).2⟩

/-- C1: for a vector of `N` elements converted to its consuming iterator,
if `k` elements are yielded by `next`/`next_back` before the iterator is
discarded, the drop logic destroys exactly the `N - k` never-yielded
elements (by the same `next` logic, each exactly once — yields plus
cleanup are a permutation of the contents), and the storage release that
follows the cleanup pass runs zero element destructors; in total exactly
`N` element destructions occur. -/
theorem C1_drop_destroys_all_remaining (sz fuel : Nat) (mem : Nat → α)
    (dangling : α) (v : Vector) (xs : List α) (ops : List Bool)
    (hlen : v.len = xs.length)
    (hxs : layoutOf sz mem dangling v.raw.ptr v.len = xs)
    (hfuel : xs.length ≤ fuel) :
    (IntoIter.runOps sz mem dangling ops (v.into_iter sz)).1.length ≤ xs.length ∧
    (IntoIter.drop sz mem dangling fuel
        (IntoIter.runOps sz mem dangling ops (v.into_iter sz)).2).1.length =
      xs.length - (IntoIter.runOps sz mem dangling ops (v.into_iter sz)).1.length ∧
    List.Perm
      ((IntoIter.runOps sz mem dangling ops (v.into_iter sz)).1 ++
        (IntoIter.drop sz mem dangling fuel
          (IntoIter.runOps sz mem dangling ops (v.into_iter sz)).2).1) xs ∧
    (IntoIter.drop sz mem dangling fuel
        (IntoIter.runOps sz mem dangling ops (v.into_iter sz)).2).2.destructorsRun = 0 ∧
    (IntoIter.runOps sz mem dangling ops (v.into_iter sz)).1.length +
      (IntoIter.drop sz mem dangling fuel
        (IntoIter.runOps sz mem dangling ops (v.into_iter sz)).2).1.length =
      xs.length := by
  obtain ⟨h1, h2, h3, h4⟩ := intoIter_run_drop v xs ops fuel hlen hxs hfuel
  refine ⟨h1, h2, h3, ?_, ?_⟩
  · rw [h4]
  · omega

/-- Witness for C1: three elements, one drawn, then dropped. -/
theorem C1_witness :
    List.Perm
      ((IntoIter.runOps 1 (fun a => a) 0 [true]
          (Vector.into_iter 1 { raw := { ptr := 0, cap := 4 }, len := 3, allocator := AllocatorInst.Global })).1 ++
        (IntoIter.drop 1 (fun a => a) 0 5
          (IntoIter.runOps 1 (fun a => a) 0 [true]
            (Vector.into_iter 1 { raw := { ptr := 0, cap := 4 }, len := 3, allocator := AllocatorInst.Global })).2).1)
      [0, 1, 2] ∧
    (IntoIter.runOps 1 (fun a => a) 0 [true]
        (Vector.into_iter 1 { raw := { ptr := 0, cap := 4 }, len := 3, allocator := AllocatorInst.Global })).1.length +
      (IntoIter.drop 1 (fun a => a) 0 5
        (IntoIter.runOps 1 (fun a => a) 0 [true]
          (Vector.into_iter 1 { raw := { ptr := 0, cap := 4 }, len := 3, allocator := AllocatorInst.Global })).2).1.length = 3 :=
  have h := C1_drop_destroys_all_remaining 1 5 (fun a => a) 0
    { raw := { ptr := 0, cap := 4 }, len := 3, allocator := AllocatorInst.Global }
    [0, 1, 2] [true] rfl (by decide) (by decide)
  ⟨h.2.2.1, h.2.2.2.2⟩

/-- C8: after `into_iter`, the original array value is neutralized
(`mem::forget`): its own destruction destroys no element and releases no
storage; the iterator side then accounts for every element exactly once
(caller yields plus cleanup are a permutation of the contents) and
releases exactly the array's own allocation, with no element destructor
run by the release — so each element and the storage are destroyed by
exactly one side, never both and never neither. -/
theorem C8_exactly_one_teardown (sz fuel : Nat) (mem : Nat → α)
    (dangling : α) (v : Vector) (xs : List α) (ops : List Bool)
    (hlen : v.len = xs.length)
    (hxs : layoutOf sz mem dangling v.raw.ptr v.len = xs)
    (hfuel : xs.length ≤ fuel) :
    forgottenTeardown α v = ([], []) ∧
    List.Perm
      ((IntoIter.runOps sz mem dangling ops (v.into_iter sz)).1 ++
        (IntoIter.drop sz mem dangling fuel
          (IntoIter.runOps sz mem dangling ops (v.into_iter sz)).2).1) xs ∧
    (IntoIter.drop sz mem dangling fuel
        (IntoIter.runOps sz mem dangling ops (v.into_iter sz)).2).2.buf = v.raw ∧
    (IntoIter.drop sz mem dangling fuel
        (IntoIter.runOps sz mem dangling ops (v.into_iter sz)).2).2.destructorsRun
      = 0 := by
  obtain ⟨h1, h2, h3, h4⟩ := intoIter_run_drop v xs ops fuel hlen hxs hfuel
  exact ⟨rfl, h3, by rw [h4], by rw [h4]⟩

/-- Witness for C8: two elements, one drawn from the back, then dropped. -/
theorem C8_witness :
    forgottenTeardown Nat { raw := { ptr := 10, cap := 2 }, len := 2, allocator := AllocatorInst.Global } = ([], []) ∧
    List.Perm
      ((IntoIter.runOps 1 (fun a => a) 0 [false]
          (Vector.into_iter 1 { raw := { ptr := 10, cap := 2 }, len := 2, allocator := AllocatorInst.Global })).1 ++
        (IntoIter.drop 1 (fun a => a) 0 9
          (IntoIter.runOps 1 (fun a => a) 0 [false]
            (Vector.into_iter 1 { raw := { ptr := 10, cap := 2 }, len := 2, allocator := AllocatorInst.Global })).2).1)
      [10, 11] ∧
    (IntoIter.drop 1 (fun a => a) 0 9
        (IntoIter.runOps 1 (fun a => a) 0 [false]
          (Vector.into_iter 1 { raw := { ptr := 10, cap := 2 }, len := 2, allocator := AllocatorInst.Global })).2).2.buf =
      { ptr := 10, cap := 2 } :=
  have h := C8_exactly_one_teardown 1 9 (fun a => a) 0
    { raw := { ptr := 10, cap := 2 }, len := 2, allocator := AllocatorInst.Global }
    [10, 11] [false] rfl (by decide) (by decide)
  ⟨h.1, h.2.1, h.2.2.1⟩

/-- C2: the conversion does take the raw-storage handle by value
(`_buf = v.raw` for every vector), but it does NOT take the vector's own
allocator instance: src/intoiter.rs line 56 stores `Global`
unconditionally, so for a vector whose storage was created with the
distinct instance `custom 0` the drop-time release uses `Global`, not the
allocator that created the storage. -/
theorem C2_allocator_not_preserved :
    (∀ (sz : Nat) (v : Vector), (v.into_iter sz)._buf = v.raw) ∧
    (Vector.into_iter 1 { raw := { ptr := 0, cap := 4 }, len := 2, allocator := AllocatorInst.custom 0 }).allocator =
      AllocatorInst.Global ∧
    (IntoIter.drop 1 (fun a => a) 0 2
      (Vector.into_iter 1 { raw := { ptr := 0, cap := 4 }, len := 2, allocator := AllocatorInst.custom 0 })).2.allocator =
      AllocatorInst.Global ∧
    AllocatorInst.Global ≠
      ({ raw := { ptr := 0, cap := 4 }, len := 2, allocator := AllocatorInst.custom 0 } : Vector).allocator := by
  refine ⟨fun sz v => rfl, rfl, rfl, by decide⟩
